import Mathlib

/-!
Verification of the UIUC Scheduler crawler-v3 pipeline
(`apps/crawler-v3/src/{writer,progress,index,scraper}.ts`).

The TypeScript sources are shallowly embedded: JS strings are `String`,
JS numbers holding integers (minute offsets, cache indices) are `Int` or
`Nat`, JS `Record<string, T>` objects are association lists
`List (String × T)` (single binding per key, `lookupA` is key lookup),
JS `Map` based interning tables are plain `List` value tables with
first-index lookup (the source only inserts a key when it is absent, so
the map from value to index always agrees with the first occurrence in
the parallel array), and JS arrays are `List`.
-/

/-! ## Generic association-list and interning helpers -/

/-- First index of `v` in a list, or `none` (JS `Array.indexOf` /
`findIndex` with an equality predicate). -/
def firstIdx? {α : Type} [DecidableEq α] : List α → α → Option Nat
  | [], _ => none
  | x :: xs, v => if x = v then some 0 else (firstIdx? xs v).map (· + 1)

/-- Look up a value in an interning table; if absent, append it at the
end and return the fresh index.  This is the common core of
`DataWriter.addToCache`, `addPeriodToCache` and `addLocationToCache`
(`writer.ts` 56-145): all three check for an existing entry by first
index and otherwise push at `cache.length`. -/
def internValue {α : Type} [DecidableEq α] (cache : List α) (v : α) : Nat × List α :=
  match firstIdx? cache v with
  | some i => (i, cache)
  | none => (cache.length, cache ++ [v])

/-- One step of JS `Map.set`-guarded-by-`Map.has` insertion-order
deduplication (`progress.ts` 490-536): append `x` only if unseen. -/
def insertNew {α : Type} [DecidableEq α] (acc : List α) (x : α) : List α :=
  if x ∈ acc then acc else acc ++ [x]

/-- Insertion-order deduplication of a list (JS `Map` keyed by the value
itself, then `Array.from(map.values())`, `progress.ts` 544-552). -/
def dedupFirst {α : Type} [DecidableEq α] (l : List α) : List α :=
  l.foldl insertNew []

/-- Remove a key from an association list (JS `delete obj[k]`). -/
def eraseKey {β : Type} (k : String) (m : List (String × β)) : List (String × β) :=
  m.filter (fun p => p.1 ≠ k)

/-- Set a key in an association list (JS `obj[k] = v`).  Lookup-relevant
semantics only; binding order is irrelevant to the claims. -/
def insertAssoc {β : Type} (k : String) (v : β) (m : List (String × β)) :
    List (String × β) :=
  eraseKey k m ++ [(k, v)]

/-- Key lookup in an association list (JS `obj[k]`). -/
def lookupA {β : Type} : List (String × β) → String → Option β
  | [], _ => none
  | p :: ps, k => if p.1 = k then some p.2 else lookupA ps k

/-- JS `Object.assign(m₁, m₂)`: every binding of `m₂` overwrites `m₁`. -/
def assignAll {β : Type} (m₁ m₂ : List (String × β)) : List (String × β) :=
  m₂.foldl (fun acc p => insertAssoc p.1 p.2 acc) m₁

/-! ### Lemmas about `firstIdx?` and `internValue` -/

theorem firstIdx?_get {α : Type} [DecidableEq α] :
    ∀ (l : List α) (v : α) (i : Nat), firstIdx? l v = some i → l.get? i = some v := by
  intro l
  induction l with
  | nil => intro v i h; simp [firstIdx?] at h
  | cons x xs ih =>
    intro v i h
    by_cases hx : x = v
    · simp [firstIdx?, hx] at h
      subst h
      simp [hx]
    · simp [firstIdx?, hx] at h
      obtain ⟨j, hj, hji⟩ := h
      subst hji
      simpa using ih v j hj

theorem firstIdx?_eq_none {α : Type} [DecidableEq α] :
    ∀ (l : List α) (v : α), firstIdx? l v = none ↔ v ∉ l := by
  intro l
  induction l with
  | nil => intro v; simp [firstIdx?]
  | cons x xs ih =>
    intro v
    by_cases hx : x = v
    · simp [firstIdx?, hx]
    · simp [firstIdx?, hx, Option.map_eq_none', ih, Ne.symm hx]

theorem firstIdx?_append_self {α : Type} [DecidableEq α]
    (l : List α) (v : α) (h : v ∉ l) : firstIdx? (l ++ [v]) v = some l.length := by
  induction l with
  | nil => simp [firstIdx?]
  | cons x xs ih =>
    simp only [List.mem_cons, not_or] at h
    simp [firstIdx?, Ne.symm h.1, ih h.2]

theorem firstIdx?_extend {α : Type} [DecidableEq α] :
    ∀ (l₁ l₂ : List α) (v : α) (i : Nat), l₁ <+: l₂ →
      firstIdx? l₁ v = some i → firstIdx? l₂ v = some i := by
  intro l₁
  induction l₁ with
  | nil => intro l₂ v i _ h; simp [firstIdx?] at h
  | cons x xs ih =>
    intro l₂ v i hpre h
    obtain ⟨rest, hrest⟩ := hpre
    subst hrest
    by_cases hx : x = v
    · simp [firstIdx?, hx] at h ⊢
      exact h
    · simp [firstIdx?, hx] at h ⊢
      obtain ⟨j, hj, hji⟩ := h
      exact ⟨j, ih (xs ++ rest) v j ⟨rest, rfl⟩ hj, hji⟩

theorem internValue_grows {α : Type} [DecidableEq α] (cache : List α) (v : α) :
    cache <+: (internValue cache v).2 := by
  unfold internValue
  cases h : firstIdx? cache v with
  | some i => exact List.prefix_refl _
  | none => exact ⟨[v], rfl⟩

theorem internValue_stored {α : Type} [DecidableEq α] (cache : List α) (v : α) :
    (internValue cache v).2.get? (internValue cache v).1 = some v := by
  unfold internValue
  cases h : firstIdx? cache v with
  | some i =>
    simpa using firstIdx?_get cache v i h
  | none =>
    simp only
    rw [List.get?_append_right (Nat.le_refl _)]
    simp

theorem internValue_found {α : Type} [DecidableEq α] (cache : List α) (v : α)
    (i : Nat) (h : firstIdx? cache v = some i) : internValue cache v = (i, cache) := by
  unfold internValue
  rw [h]

theorem internValue_firstIdx {α : Type} [DecidableEq α] (cache : List α) (v : α) :
    firstIdx? (internValue cache v).2 v = some (internValue cache v).1 := by
  unfold internValue
  cases h : firstIdx? cache v with
  | some i => simpa using h
  | none =>
    simp only
    exact firstIdx?_append_self cache v ((firstIdx?_eq_none cache v).mp h)

theorem internValue_idem {α : Type} [DecidableEq α] (cache : List α) (v : α) :
    internValue (internValue cache v).2 v = internValue cache v := by
  have := internValue_found (internValue cache v).2 v (internValue cache v).1
    (internValue_firstIdx cache v)
  rw [this]

theorem internValue_stable {α : Type} [DecidableEq α] (cache cache₂ : List α) (v : α)
    (h : (internValue cache v).2 <+: cache₂) :
    internValue cache₂ v = ((internValue cache v).1, cache₂) := by
  exact internValue_found cache₂ v (internValue cache v).1
    (firstIdx?_extend _ _ v _ h (internValue_firstIdx cache v))

/-! ### Lemmas about `dedupFirst` -/

theorem foldl_insertNew_nodup {α : Type} [DecidableEq α] :
    ∀ (l acc : List α), acc.Nodup → (l.foldl insertNew acc).Nodup := by
  intro l
  induction l with
  | nil => intro acc h; simpa using h
  | cons x xs ih =>
    intro acc h
    simp only [List.foldl_cons]
    apply ih
    unfold insertNew
    by_cases hx : x ∈ acc
    · simpa [hx] using h
    · simp only [hx, if_false]
      simpa [List.nodup_append] using ⟨h, hx⟩

theorem mem_foldl_insertNew {α : Type} [DecidableEq α] :
    ∀ (l acc : List α) (v : α), v ∈ l.foldl insertNew acc ↔ v ∈ acc ∨ v ∈ l := by
  intro l
  induction l with
  | nil => intro acc v; simp
  | cons x xs ih =>
    intro acc v
    simp only [List.foldl_cons, ih, List.mem_cons]
    unfold insertNew
    by_cases hx : x ∈ acc
    · simp only [hx, if_true]
      constructor
      · tauto
      · rintro (h | h | h) <;> try tauto
        subst h; tauto
    · simp only [hx, if_false, List.mem_append, List.mem_singleton]
      tauto

theorem dedupFirst_nodup {α : Type} [DecidableEq α] (l : List α) :
    (dedupFirst l).Nodup :=
  foldl_insertNew_nodup l [] List.nodup_nil

theorem mem_dedupFirst {α : Type} [DecidableEq α] (l : List α) (v : α) :
    v ∈ dedupFirst l ↔ v ∈ l := by
  unfold dedupFirst
  simpa using mem_foldl_insertNew l [] v

theorem getElem_not_mem_take {α : Type} (l : List α) (hm : l.Nodup) (n : Nat)
    (hn : n < l.length) : l[n] ∉ l.take n := by
  intro hmem
  obtain ⟨i, hi, hx⟩ := List.getElem_of_mem hmem
  have hi2 : i < n := by
    have := hi
    simp [List.length_take] at this
    omega
  have hi3 : i < l.length := by omega
  have hx2 : l[i] = l[n] := by
    rw [← hx]
    simp [List.getElem_take]
  have hfin : (⟨i, hi3⟩ : Fin l.length) = ⟨n, hn⟩ :=
    (List.Nodup.get_inj_iff hm).mp (by simpa using hx2)
  have : i = n := congrArg Fin.val hfin
  omega

/-- Folding insertion-order dedup insertion of a prefix of a duplicate-free
master list into another prefix of the same master yields the longer of
the two prefixes. -/
theorem foldl_insertNew_take_eq {α : Type} [DecidableEq α] (master : List α)
    (hm : master.Nodup) :
    ∀ (n : Nat) (acc : List α), acc <+: master →
      (master.take n).foldl insertNew acc =
        if (master.take n).length ≤ acc.length then acc else master.take n := by
  intro n
  induction n with
  | zero => intro acc _; simp
  | succ n ih =>
    intro acc hacc
    by_cases hlen : master.length ≤ n
    · have h1 : master.take (n + 1) = master.take n := by
        rw [List.take_of_length_le hlen, List.take_of_length_le (by omega)]
      rw [h1]
      exact ih acc hacc
    · push_neg at hlen
      have htake : master.take (n + 1) = master.take n ++ [master[n]] := by
        rw [List.take_succ]
        simp [List.getElem?_eq_getElem hlen]
      have hlentn : (master.take n).length = n := by
        simp only [List.length_take]
        omega
      have hlentn1 : (master.take n ++ [master[n]]).length = n + 1 := by
        rw [List.length_append, hlentn]
        rfl
      rw [htake, List.foldl_append, ih acc hacc]
      simp only [List.foldl_cons, List.foldl_nil]
      rw [hlentn1, hlentn]
      by_cases hc : n + 1 ≤ acc.length
      · rw [if_pos (by omega : n ≤ acc.length), if_pos hc]
        have hxacc : master[n] ∈ acc := by
          have heq : acc = master.take acc.length := List.prefix_iff_eq_take.mp hacc
          rw [heq]
          have hq : (master.take acc.length).get? n = some master[n] := by
            rw [List.get?_take (by omega), List.get?_eq_getElem?,
              List.getElem?_eq_getElem hlen]
          exact List.get?_mem hq
        simp only [insertNew, if_pos hxacc]
      · by_cases hc2 : n ≤ acc.length
        · rw [if_pos hc2, if_neg hc]
          have hacclen : acc.length = n := by omega
          have heq : acc = master.take n := by
            have h2 := List.prefix_iff_eq_take.mp hacc
            rw [hacclen] at h2
            exact h2
          have hx : master[n] ∉ acc := by
            rw [heq]; exact getElem_not_mem_take master hm n hlen
          simp only [insertNew, if_neg hx]
          rw [heq]
        · rw [if_neg hc2, if_neg hc]
          have hx : master[n] ∉ master.take n := getElem_not_mem_take master hm n hlen
          simp only [insertNew, if_neg hx]

/-- Chunk version: folding a prefix of a duplicate-free master into a
prefix of the same master gives the longer prefix. -/
theorem foldl_insertNew_chunk_eq {α : Type} [DecidableEq α] (master : List α)
    (hm : master.Nodup) (p acc : List α) (hp : p <+: master) (hacc : acc <+: master) :
    p.foldl insertNew acc = if p.length ≤ acc.length then acc else p := by
  have heq : p = master.take p.length := List.prefix_iff_eq_take.mp hp
  calc p.foldl insertNew acc = (master.take p.length).foldl insertNew acc := by rw [← heq]
    _ = if (master.take p.length).length ≤ acc.length then acc
        else master.take p.length := foldl_insertNew_take_eq master hm p.length acc hacc
    _ = if p.length ≤ acc.length then acc else p := by rw [← heq]

/-- Folding all chunks (each a prefix of a common duplicate-free master)
keeps the accumulator a prefix of the master and at least as long as
every chunk. -/
theorem foldl_insertNew_chunks {α : Type} [DecidableEq α] (master : List α)
    (hm : master.Nodup) :
    ∀ (ls : List (List α)) (acc : List α), acc <+: master →
      (∀ l ∈ ls, l <+: master) →
      (ls.flatten.foldl insertNew acc) <+: master ∧
      acc.length ≤ (ls.flatten.foldl insertNew acc).length ∧
      ∀ l ∈ ls, l.length ≤ (ls.flatten.foldl insertNew acc).length := by
  intro ls
  induction ls with
  | nil =>
    intro acc hacc _
    refine ⟨by simpa using hacc, by simp, by simp⟩
  | cons p ls ih =>
    intro acc hacc hls
    have hp : p <+: master := hls p (List.mem_cons_self p ls)
    have hstep : p.foldl insertNew acc = if p.length ≤ acc.length then acc else p :=
      foldl_insertNew_chunk_eq master hm p acc hp hacc
    have hrest : ∀ l ∈ ls, l <+: master := fun l hl => hls l (List.mem_cons_of_mem p hl)
    have hflat : (p :: ls).flatten = p ++ ls.flatten := rfl
    rw [hflat, List.foldl_append, hstep]
    by_cases hc : p.length ≤ acc.length
    · rw [if_pos hc]
      obtain ⟨h1, h2, h3⟩ := ih acc hacc hrest
      refine ⟨h1, h2, ?_⟩
      intro l hl
      rcases List.mem_cons.mp hl with h | h
      · subst h; omega
      · exact h3 l h
    · rw [if_neg hc]
      push_neg at hc
      obtain ⟨h1, h2, h3⟩ := ih p hp hrest
      refine ⟨h1, by omega, ?_⟩
      intro l hl
      rcases List.mem_cons.mp hl with h | h
      · subst h; omega
      · exact h3 l h

/-- Every chunk of the input is a prefix of the insertion-order dedup of
the flattened chunks, provided all chunks are prefixes of one common
duplicate-free master list. -/
theorem chunk_prefix_dedupFirst {α : Type} [DecidableEq α] (master : List α)
    (hm : master.Nodup) (ls : List (List α)) (hls : ∀ l ∈ ls, l <+: master) :
    ∀ l ∈ ls, l <+: dedupFirst ls.flatten := by
  intro l hl
  obtain ⟨h1, _, h3⟩ := foldl_insertNew_chunks master hm ls [] (by simp) hls
  exact List.prefix_of_prefix_length_le (hls l hl) h1 (h3 l hl)

/-! ## Writer embedding (`apps/crawler-v3/src/writer.ts`)

Building coordinates are floating-point in the source; the claims only
compare them for equality, so the coordinate type is an abstract `κ`
with decidable equality, and `findBuildingLocation` (defined in
`locations.ts`, which only tabulates building names) is an abstract
function `findLoc : String → Option (κ × κ)`. -/

/-- Interning tables of one `DataWriter` session (`writer.ts` 37-48 and
`types.ts` `Caches`).  A location entry is the `{lat, long}` pair, with
`none` for the JS `null` coordinates. -/
structure Caches (κ : Type) where
  periods : List String
  dateRanges : List String
  scheduleTypes : List String
  campuses : List String
  attributes : List String
  restrictions : List String
  gradeBases : List String
  locations : List (Option κ × Option κ)
  finalDates : List String
  finalTimes : List String
deriving DecidableEq

/-- All-empty caches, the `DataWriter` constructor state. -/
def emptyCaches {κ : Type} : Caches κ := ⟨[], [], [], [], [], [], [], [], [], []⟩

/-- JS `String.prototype.padStart(4, '0')`. -/
def padStart4 (s : String) : String :=
  if s.length < 4 then String.mk (List.replicate (4 - s.length) '0') ++ s else s

/-- `minutesToHHMM` (`writer.ts` 81-85): `Math.floor(minutes / 60)` is
flooring division (`Int.fdiv`) and JS `%` keeps the dividend's sign
(`Int.tmod`); the sum is rendered in decimal and left-padded to four
characters. -/
def minutesToHHMM (minutes : Int) : String :=
  padStart4 (toString (minutes.fdiv 60 * 100 + minutes.tmod 60))

/-- The timed period dedup key `${startStr} - ${endStr}` (`writer.ts` 89). -/
def periodString (startTime endTime : Int) : String :=
  minutesToHHMM startTime ++ " - " ++ minutesToHHMM endTime

/-- `DataWriter.addPeriodToCache` (`writer.ts` 56-102): `-1` on either
side yields the fixed `"ARRANGED"` entry, otherwise `-2` yields the
fixed `"TBA"` entry, otherwise the canonical timed string; each branch
reuses an existing entry found by first index or pushes a new one at the
end. -/
def addPeriodToCache (periods : List String) (startTime endTime : Int) :
    Nat × List String :=
  if startTime = -1 ∨ endTime = -1 then internValue periods "ARRANGED"
  else if startTime = -2 ∨ endTime = -2 then internValue periods "TBA"
  else internValue periods (periodString startTime endTime)

/-- `DataWriter.addToCache` (`writer.ts` 107-121): the `Map` from value
to index is populated only when the value is absent, so it coincides
with first-index lookup in the parallel array. -/
def addToCache (cache : List String) (value : String) : Nat × List String :=
  internValue cache value

/-- The `{lat, long}` location record built by `addLocationToCache`
(`writer.ts` 128-131) from the `findBuildingLocation` result. -/
def locationOf {κ : Type} (findLoc : String → Option (κ × κ)) (room : String) :
    Option κ × Option κ :=
  match findLoc room with
  | some c => (some c.1, some c.2)
  | none => (none, none)

/-- `DataWriter.addLocationToCache` (`writer.ts` 126-145): dedup by
`findIndex` on componentwise coordinate equality, push at the end when
absent. -/
def addLocationToCache {κ : Type} [DecidableEq κ]
    (findLoc : String → Option (κ × κ)) (locations : List (Option κ × Option κ))
    (room : String) : Nat × List (Option κ × Option κ) :=
  internValue locations (locationOf findLoc room)

/-- Meeting tuple (`types.ts` `Meeting`): positions 0-7 are periodIndex,
days, room, locationIndex, instructors, dateRangeIndex, finalDateIndex,
finalTimeIndex. -/
structure Meeting where
  periodIndex : Nat
  days : String
  room : String
  locationIndex : Nat
  instructors : List String
  dateRangeIndex : Int
  finalDateIndex : Int
  finalTimeIndex : Int
deriving DecidableEq

/-- Section tuple as produced by `convertCourse` (`writer.ts` 185-193):
crn, meetings, credits, scheduleTypeIndex, campusIndex,
attributeIndices, gradeBasisIndex. -/
structure Section where
  crn : String
  meetings : List Meeting
  credits : Int
  scheduleTypeIndex : Nat
  campusIndex : Nat
  attributeIndices : List Nat
  gradeBasisIndex : Int
deriving DecidableEq

/-- Course tuple (`writer.ts` 199-205): title, sections map (keyed by
section id), prerequisites (empty for MVP), description, corequisites
(empty for MVP). -/
structure Course where
  title : String
  sections : List (String × Section)
  prerequisites : List String
  description : Option String
  corequisites : List String
deriving DecidableEq

/-- Scraped meeting (`types.ts` `ScrapedMeeting`, with the minute
offsets the scraper actually stores in `startTime`/`endTime`). -/
structure ScrapedMeeting where
  days : String
  startTime : Int
  endTime : Int
  room : String
  building : String
  instructors : List String
  dateRange : String
  isOnline : Bool
deriving DecidableEq

/-- Scraped section (`types.ts` `ScrapedSection`). -/
structure ScrapedSection where
  crn : String
  sectionId : String
  sectionTitle : String
  scheduleType : String
  campus : String
  attributes : List String
  gradeBase : String
  meetings : List ScrapedMeeting
  restrictions : List String
deriving DecidableEq

/-- Scraped course (`types.ts` `ScrapedCourse`). -/
structure ScrapedCourse where
  subject : String
  number : String
  title : String
  description : Option String
  creditHours : Int
  sections : List ScrapedSection
deriving DecidableEq

/-- One meeting conversion step of `convertCourse` (`writer.ts` 154-172):
intern the period and the location (empty room text when online), and
emit the meeting tuple with the `-1` placeholders. -/
def convertMeeting {κ : Type} [DecidableEq κ] (findLoc : String → Option (κ × κ))
    (caches : Caches κ) (m : ScrapedMeeting) : Meeting × Caches κ :=
  let pr := addPeriodToCache caches.periods m.startTime m.endTime
  let locationRoom := if m.isOnline then "" else m.room
  let lr := addLocationToCache findLoc caches.locations locationRoom
  (⟨pr.1, m.days, m.room, lr.1, m.instructors, -1, -1, -1⟩,
   { caches with periods := pr.2, locations := lr.2 })

/-- `scrapedSection.meetings.map(...)` with the cache state threaded in
meeting order. -/
def convertMeetings {κ : Type} [DecidableEq κ] (findLoc : String → Option (κ × κ)) :
    List ScrapedMeeting → Caches κ → List Meeting × Caches κ
  | [], caches => ([], caches)
  | m :: ms, caches =>
    let r := convertMeeting findLoc caches m
    let rest := convertMeetings findLoc ms r.2
    (r.1 :: rest.1, rest.2)

/-- `scrapedSection.attributes.map(attr => this.addToCache('attributes', attr))`
(`writer.ts` 176-178). -/
def addAttributes : List String → List String → List Nat × List String
  | [], cache => ([], cache)
  | a :: rest, cache =>
    let r := addToCache cache a
    let tail := addAttributes rest r.2
    (r.1 :: tail.1, tail.2)

/-- One section conversion step of `convertCourse` (`writer.ts` 152-195):
meetings first, then attribute indices, then the schedule type index;
campusIndex is the constant 0 and gradeBasisIndex the constant -1. -/
def convertSection {κ : Type} [DecidableEq κ] (findLoc : String → Option (κ × κ))
    (creditHours : Int) (caches : Caches κ) (s : ScrapedSection) :
    (String × Section) × Caches κ :=
  let mr := convertMeetings findLoc s.meetings caches
  let ar := addAttributes s.attributes mr.2.attributes
  let c₂ := { mr.2 with attributes := ar.2 }
  let sr := addToCache c₂.scheduleTypes s.scheduleType
  let c₃ := { c₂ with scheduleTypes := sr.2 }
  ((s.sectionId, ⟨s.crn, mr.1, creditHours, sr.1, 0, ar.1, -1⟩), c₃)

/-- The `sectionsMap` accumulation loop of `convertCourse`
(`sectionsMap[scrapedSection.sectionId] = section`). -/
def convertSectionsAux {κ : Type} [DecidableEq κ] (findLoc : String → Option (κ × κ))
    (creditHours : Int) :
    List ScrapedSection → List (String × Section) → Caches κ →
      List (String × Section) × Caches κ
  | [], acc, caches => (acc, caches)
  | s :: ss, acc, caches =>
    let r := convertSection findLoc creditHours caches s
    convertSectionsAux findLoc creditHours ss (insertAssoc r.1.1 r.1.2 acc) r.2

/-- `DataWriter.convertCourse` (`writer.ts` 149-206). -/
def convertCourse {κ : Type} [DecidableEq κ] (findLoc : String → Option (κ × κ))
    (caches : Caches κ) (scraped : ScrapedCourse) : Course × Caches κ :=
  let r := convertSectionsAux findLoc scraped.creditHours scraped.sections [] caches
  (⟨scraped.title, r.1, [], scraped.description, []⟩, r.2)

/-! ## Canonical period form and per-claim lemmas for the writer -/

/-- The canonical dedup key that `addPeriodToCache` interns for a given
start/end pair: `"ARRANGED"`, `"TBA"`, or the timed string. -/
def periodCanon (startTime endTime : Int) : String :=
  if startTime = -1 ∨ endTime = -1 then "ARRANGED"
  else if startTime = -2 ∨ endTime = -2 then "TBA"
  else periodString startTime endTime

theorem addPeriodToCache_eq_intern (periods : List String) (s e : Int) :
    addPeriodToCache periods s e = internValue periods (periodCanon s e) := by
  unfold addPeriodToCache periodCanon
  split_ifs <;> rfl

/-- C8: interning is idempotent and append-only within one session:
for each of `addToCache`, `addPeriodToCache` and `addLocationToCache`,
the cache grows only by appending (existing entries are never modified
or reordered), the entry at the returned index equals the canonical form
of the value, re-encoding the same value returns the first insertion's
index and leaves the cache unchanged, and the same index is still
returned after any later insertions (any extension of the cache). -/
theorem C8_interning_idempotent {κ : Type} [DecidableEq κ]
    (findLoc : String → Option (κ × κ)) :
    (∀ (cache : List String) (v : String),
      cache <+: (addToCache cache v).2 ∧
      (addToCache cache v).2.get? (addToCache cache v).1 = some v ∧
      addToCache (addToCache cache v).2 v = addToCache cache v ∧
      ∀ cache₂, (addToCache cache v).2 <+: cache₂ →
        addToCache cache₂ v = ((addToCache cache v).1, cache₂)) ∧
    (∀ (periods : List String) (s e : Int),
      periods <+: (addPeriodToCache periods s e).2 ∧
      (addPeriodToCache periods s e).2.get? (addPeriodToCache periods s e).1 =
        some (periodCanon s e) ∧
      addPeriodToCache (addPeriodToCache periods s e).2 s e =
        addPeriodToCache periods s e ∧
      ∀ periods₂, (addPeriodToCache periods s e).2 <+: periods₂ →
        addPeriodToCache periods₂ s e = ((addPeriodToCache periods s e).1, periods₂)) ∧
    (∀ (locations : List (Option κ × Option κ)) (room : String),
      locations <+: (addLocationToCache findLoc locations room).2 ∧
      (addLocationToCache findLoc locations room).2.get?
          (addLocationToCache findLoc locations room).1 =
        some (locationOf findLoc room) ∧
      addLocationToCache findLoc (addLocationToCache findLoc locations room).2 room =
        addLocationToCache findLoc locations room ∧
      ∀ locations₂, (addLocationToCache findLoc locations room).2 <+: locations₂ →
        addLocationToCache findLoc locations₂ room =
          ((addLocationToCache findLoc locations room).1, locations₂)) := by
  refine ⟨?_, ?_, ?_⟩
  · intro cache v
    exact ⟨internValue_grows cache v, internValue_stored cache v,
      internValue_idem cache v, fun cache₂ h => internValue_stable cache cache₂ v h⟩
  · intro periods s e
    simp only [addPeriodToCache_eq_intern]
    exact ⟨internValue_grows periods _, internValue_stored periods _,
      internValue_idem periods _, fun periods₂ h => internValue_stable periods periods₂ _ h⟩
  · intro locations room
    simp only [addLocationToCache]
    exact ⟨internValue_grows locations _, internValue_stored locations _,
      internValue_idem locations _,
      fun locations₂ h => internValue_stable locations locations₂ _ h⟩

/-- Witness for C8 at concrete inputs. -/
theorem C8_interning_idempotent_witness :
    addToCache ["Lecture"] "Lab" = (1, ["Lecture", "Lab"]) ∧
    addToCache ["Lecture", "Lab", "Discussion"] "Lab" =
      (1, ["Lecture", "Lab", "Discussion"]) := by
  have h := (C8_interning_idempotent (fun _ : String => (none : Option (Unit × Unit)))).1
  have h1 := (h ["Lecture"] "Lab").2.2.2 ["Lecture", "Lab", "Discussion"]
    ⟨["Discussion"], by decide⟩
  constructor
  · decide
  · have he : addToCache ["Lecture"] "Lab" = (1, ["Lecture", "Lab"]) := by decide
    rw [he] at h1
    exact h1

/-! ## C10: constant placeholder indices in `convertCourse` output -/

theorem mem_insertAssoc {β : Type} (k : String) (v : β) (m : List (String × β)) :
    ∀ p ∈ insertAssoc k v m, p ∈ m ∨ p = (k, v) := by
  intro p hp
  unfold insertAssoc eraseKey at hp
  rcases List.mem_append.mp hp with h | h
  · exact Or.inl (List.mem_of_mem_filter h)
  · exact Or.inr (List.mem_singleton.mp h)

theorem convertMeetings_placeholder {κ : Type} [DecidableEq κ]
    (findLoc : String → Option (κ × κ)) :
    ∀ (ms : List ScrapedMeeting) (caches : Caches κ),
      ∀ mt ∈ (convertMeetings findLoc ms caches).1,
        mt.dateRangeIndex = -1 ∧ mt.finalDateIndex = -1 ∧ mt.finalTimeIndex = -1 := by
  intro ms
  induction ms with
  | nil => intro caches mt hmt; simp [convertMeetings] at hmt
  | cons m ms ih =>
    intro caches mt hmt
    simp only [convertMeetings] at hmt
    rcases List.mem_cons.mp hmt with h | h
    · subst h
      exact ⟨rfl, rfl, rfl⟩
    · exact ih _ mt h

/-- The placeholder/constant property of one emitted section. -/
def SectionConsts (s : Section) : Prop :=
  s.campusIndex = 0 ∧ s.gradeBasisIndex = -1 ∧
    ∀ mt ∈ s.meetings,
      mt.dateRangeIndex = -1 ∧ mt.finalDateIndex = -1 ∧ mt.finalTimeIndex = -1

theorem convertSectionsAux_consts {κ : Type} [DecidableEq κ]
    (findLoc : String → Option (κ × κ)) (creditHours : Int) :
    ∀ (ss : List ScrapedSection) (acc : List (String × Section)) (caches : Caches κ),
      (∀ p ∈ acc, SectionConsts p.2) →
      ∀ p ∈ (convertSectionsAux findLoc creditHours ss acc caches).1,
        SectionConsts p.2 := by
  intro ss
  induction ss with
  | nil => intro acc caches hacc p hp; exact hacc p hp
  | cons s ss ih =>
    intro acc caches hacc p hp
    simp only [convertSectionsAux] at hp
    refine ih _ _ ?_ p hp
    intro q hq
    rcases mem_insertAssoc _ _ _ q hq with h | h
    · exact hacc q h
    · subst h
      exact ⟨rfl, rfl, convertMeetings_placeholder findLoc s.meetings caches⟩

/-- C10: every Meeting produced by `convertCourse` has
dateRangeIndex = finalDateIndex = finalTimeIndex = -1, and every Section
it produces has campusIndex = 0 and gradeBasisIndex = -1, for every
scraped input and every starting cache state. -/
theorem C10_constant_placeholder_indices {κ : Type} [DecidableEq κ]
    (findLoc : String → Option (κ × κ)) (caches : Caches κ) (scraped : ScrapedCourse) :
    ∀ p ∈ (convertCourse findLoc caches scraped).1.sections,
      p.2.campusIndex = 0 ∧ p.2.gradeBasisIndex = -1 ∧
        ∀ mt ∈ p.2.meetings,
          mt.dateRangeIndex = -1 ∧ mt.finalDateIndex = -1 ∧ mt.finalTimeIndex = -1 := by
  intro p hp
  exact convertSectionsAux_consts findLoc scraped.creditHours scraped.sections [] caches
    (by intro q hq; simp at hq) p hp

/-- A concrete scraped course for the C10 witness. -/
def c10Scraped : ScrapedCourse :=
  ⟨"CS", "100", "Intro", none, 3,
    [⟨"12345", "AL1", "Intro", "Lecture", "Urbana-Champaign", ["Online"],
      "Letter Grade",
      [⟨"MWF", 540, 590, "Siebel 1404", "Siebel", ["Staff"], "range", false⟩],
      []⟩]⟩

/-- The section tuple that `convertCourse` emits for `c10Scraped`. -/
def c10Section : Section :=
  ⟨"12345", [⟨0, "MWF", "Siebel 1404", 0, ["Staff"], -1, -1, -1⟩], 3, 0, 0, [0], -1⟩

/-- Witness for C10 at a concrete scraped course. -/
theorem C10_constant_placeholder_indices_witness :
    ("AL1", c10Section) ∈ (convertCourse
      (fun _ : String => (none : Option (Int × Int))) emptyCaches
      c10Scraped).1.sections ∧
    c10Section.campusIndex = 0 ∧ c10Section.gradeBasisIndex = -1 :=
  ⟨by decide,
   (C10_constant_placeholder_indices (fun _ : String => (none : Option (Int × Int)))
      emptyCaches c10Scraped ("AL1", c10Section) (by decide)).1,
   (C10_constant_placeholder_indices (fun _ : String => (none : Option (Int × Int)))
      emptyCaches c10Scraped ("AL1", c10Section) (by decide)).2.1⟩

/-! ## C7: period encoding collapses to three shapes -/

/-- The cache entry at the index returned by `addPeriodToCache`. -/
def periodEntry? (periods : List String) (s e : Int) : Option String :=
  (addPeriodToCache periods s e).2.get? (addPeriodToCache periods s e).1

set_option maxHeartbeats 4000000 in
set_option maxRecDepth 4000 in
theorem hhmm_digits_aux : ∀ h : Fin 24, ∀ mm : Fin 60,
    (minutesToHHMM ((h.val * 60 + mm.val : Nat) : Int)).length = 4 ∧
    ((minutesToHHMM ((h.val * 60 + mm.val : Nat) : Int)).toList.all Char.isDigit
      = true) := by
  decide

theorem padStart4_length (s : String) : 4 ≤ (padStart4 s).length := by
  unfold padStart4
  split_ifs with h
  · rw [String.length_append]
    have hmk : (String.mk (List.replicate (4 - s.length) '0')).length = 4 - s.length := by
      show (List.replicate (4 - s.length) '0').length = 4 - s.length
      exact List.length_replicate _ _
    omega
  · omega

theorem periodString_length (s e : Int) : 11 ≤ (periodString s e).length := by
  unfold periodString minutesToHHMM
  rw [String.length_append, String.length_append]
  have h1 := padStart4_length (toString (s.fdiv 60 * 100 + s.tmod 60))
  have h2 := padStart4_length (toString (e.fdiv 60 * 100 + e.tmod 60))
  have h3 : (" - " : String).length = 3 := by decide
  omega

/-- C7: every input to the period encoder lands in exactly one of three
shapes.  (a) When both endpoints are valid minute-of-day values the
entry is the timed string whose two halves are zero-padded four-digit
strings (720 renders as "1200"); (b) the arranged sentinel -1 yields the
single fixed "ARRANGED" entry; (c) otherwise the unknown sentinel -2
yields the single fixed "TBA" entry; in all remaining cases the timed
string shape is produced, and the timed shape never collides with
either sentinel entry. -/
theorem C7_period_three_shapes :
    (∀ (periods : List String) (s e : Int), s = -1 ∨ e = -1 →
      periodEntry? periods s e = some "ARRANGED") ∧
    (∀ (periods : List String) (s e : Int), ¬(s = -1 ∨ e = -1) → s = -2 ∨ e = -2 →
      periodEntry? periods s e = some "TBA") ∧
    (∀ (periods : List String) (s e : Int), ¬(s = -1 ∨ e = -1) → ¬(s = -2 ∨ e = -2) →
      periodEntry? periods s e = some (periodString s e)) ∧
    (∀ s : Int, 0 ≤ s → s < 1440 →
      (minutesToHHMM s).length = 4 ∧ (minutesToHHMM s).toList.all Char.isDigit = true) ∧
    minutesToHHMM 720 = "1200" ∧
    (∀ s e : Int, periodString s e ≠ "ARRANGED" ∧ periodString s e ≠ "TBA") := by
  refine ⟨?_, ?_, ?_, ?_, by decide, ?_⟩
  · intro periods s e h
    unfold periodEntry? addPeriodToCache
    rw [if_pos h]
    exact internValue_stored _ _
  · intro periods s e h1 h2
    unfold periodEntry? addPeriodToCache
    rw [if_neg h1, if_pos h2]
    exact internValue_stored _ _
  · intro periods s e h1 h2
    unfold periodEntry? addPeriodToCache
    rw [if_neg h1, if_neg h2]
    exact internValue_stored _ _
  · intro s hs0 hs1
    have hdm : (s.toNat / 60) * 60 + s.toNat % 60 = s.toNat := by omega
    have hlt24 : s.toNat / 60 < 24 := by omega
    have hlt60 : s.toNat % 60 < 60 := by omega
    have haux := hhmm_digits_aux ⟨s.toNat / 60, hlt24⟩ ⟨s.toNat % 60, hlt60⟩
    have haux2 :
        (minutesToHHMM ((s.toNat / 60 * 60 + s.toNat % 60 : Nat) : Int)).length = 4 ∧
        ((minutesToHHMM ((s.toNat / 60 * 60 + s.toNat % 60 : Nat) : Int)).toList.all
          Char.isDigit = true) := haux
    rw [hdm, Int.toNat_of_nonneg hs0] at haux2
    exact haux2
  · intro s e
    have hlen := periodString_length s e
    constructor
    · intro heq
      have : (periodString s e).length = 8 := by rw [heq]; decide
      omega
    · intro heq
      have : (periodString s e).length = 3 := by rw [heq]; decide
      omega

/-- Witness for C7 at concrete inputs. -/
theorem C7_period_three_shapes_witness :
    periodEntry? [] (-1) 300 = some "ARRANGED" ∧
    periodEntry? [] 300 (-2) = some "TBA" ∧
    periodEntry? [] 540 590 = some (periodString 540 590) ∧
    (minutesToHHMM 720).length = 4 ∧
    (minutesToHHMM 720).toList.all Char.isDigit = true ∧
    periodString 540 590 ≠ "ARRANGED" := by
  obtain ⟨h1, h2, h3, h4, _, h6⟩ := C7_period_three_shapes
  exact ⟨h1 [] (-1) 300 (Or.inl rfl),
    h2 [] 300 (-2) (by decide) (Or.inr rfl),
    h3 [] 540 590 (by decide) (by decide),
    (h4 720 (by decide) (by decide)).1,
    (h4 720 (by decide) (by decide)).2,
    (h6 540 590).1⟩

/-! ## Merge engine embedding (`ProgressManager.mergeAllSubjects`,
`progress.ts` 442-555) -/

/-- A persisted subject shard (`progress.ts` `SubjectFile`): the
subdivision id, its encoded records keyed by Catalog Key, and its local
interning tables.  The `scrapedAt`/`courseCount` metadata fields are not
read by the merge and are omitted. -/
structure SubjectFile (κ : Type) where
  subject : String
  courses : List (String × Course)
  caches : Caches κ
deriving DecidableEq

/-- `ProgressManager.mergeAllSubjects` (`progress.ts` 442-555): courses
are combined by `Object.assign` (later files overwrite equal keys,
records themselves are copied unchanged), and each cache category is
deduplicated in insertion order.  The source keys periods and locations
by `JSON.stringify` and the other categories by the string value itself;
`JSON.stringify` is injective on strings and on the fixed-shape
`{lat, long}` records, so the dedup key is modeled as the value.  The
merged caches are initialized without a `restrictions` category
(`progress.ts` 444-454), so it stays empty.  Files are processed in
directory-listing order, modeled by the input list order. -/
def mergeAllSubjects {κ : Type} [DecidableEq κ] (files : List (SubjectFile κ)) :
    List (String × Course) × Caches κ :=
  (files.foldl (fun acc f => assignAll acc f.courses) [],
   { periods := dedupFirst (files.map (fun f => f.caches.periods)).flatten,
     dateRanges := dedupFirst (files.map (fun f => f.caches.dateRanges)).flatten,
     scheduleTypes := dedupFirst (files.map (fun f => f.caches.scheduleTypes)).flatten,
     campuses := dedupFirst (files.map (fun f => f.caches.campuses)).flatten,
     attributes := dedupFirst (files.map (fun f => f.caches.attributes)).flatten,
     restrictions := [],
     gradeBases := dedupFirst (files.map (fun f => f.caches.gradeBases)).flatten,
     locations := dedupFirst (files.map (fun f => f.caches.locations)).flatten,
     finalDates := dedupFirst (files.map (fun f => f.caches.finalDates)).flatten,
     finalTimes := dedupFirst (files.map (fun f => f.caches.finalTimes)).flatten })

/-! ## C2: merged caches are duplicate-free -/

theorem dedupFirst_count_one {α : Type} [DecidableEq α] (l : List α) (v : α)
    (hv : v ∈ l) : (dedupFirst l).count v = 1 :=
  List.count_eq_one_of_mem (dedupFirst_nodup l) ((mem_dedupFirst l v).mpr hv)

/-- C2: for every category, the cache produced by `mergeAllSubjects` is
duplicate-free, and any value present in some shard's table appears
exactly once in the merged table. -/
theorem C2_merge_caches_duplicate_free {κ : Type} [DecidableEq κ]
    (files : List (SubjectFile κ)) :
    ((mergeAllSubjects files).2.periods.Nodup ∧ ∀ v : String,
      v ∈ (files.map (fun f => f.caches.periods)).flatten →
        (mergeAllSubjects files).2.periods.count v = 1) ∧
    ((mergeAllSubjects files).2.dateRanges.Nodup ∧ ∀ v : String,
      v ∈ (files.map (fun f => f.caches.dateRanges)).flatten →
        (mergeAllSubjects files).2.dateRanges.count v = 1) ∧
    ((mergeAllSubjects files).2.scheduleTypes.Nodup ∧ ∀ v : String,
      v ∈ (files.map (fun f => f.caches.scheduleTypes)).flatten →
        (mergeAllSubjects files).2.scheduleTypes.count v = 1) ∧
    ((mergeAllSubjects files).2.campuses.Nodup ∧ ∀ v : String,
      v ∈ (files.map (fun f => f.caches.campuses)).flatten →
        (mergeAllSubjects files).2.campuses.count v = 1) ∧
    ((mergeAllSubjects files).2.attributes.Nodup ∧ ∀ v : String,
      v ∈ (files.map (fun f => f.caches.attributes)).flatten →
        (mergeAllSubjects files).2.attributes.count v = 1) ∧
    ((mergeAllSubjects files).2.gradeBases.Nodup ∧ ∀ v : String,
      v ∈ (files.map (fun f => f.caches.gradeBases)).flatten →
        (mergeAllSubjects files).2.gradeBases.count v = 1) ∧
    ((mergeAllSubjects files).2.locations.Nodup ∧ ∀ v : Option κ × Option κ,
      v ∈ (files.map (fun f => f.caches.locations)).flatten →
        @List.count _ instBEqOfDecidableEq v (mergeAllSubjects files).2.locations = 1) ∧
    ((mergeAllSubjects files).2.finalDates.Nodup ∧ ∀ v : String,
      v ∈ (files.map (fun f => f.caches.finalDates)).flatten →
        (mergeAllSubjects files).2.finalDates.count v = 1) ∧
    ((mergeAllSubjects files).2.finalTimes.Nodup ∧ ∀ v : String,
      v ∈ (files.map (fun f => f.caches.finalTimes)).flatten →
        (mergeAllSubjects files).2.finalTimes.count v = 1) := by
  simp only [mergeAllSubjects]
  exact ⟨⟨dedupFirst_nodup _, fun v hv => dedupFirst_count_one _ v hv⟩,
    ⟨dedupFirst_nodup _, fun v hv => dedupFirst_count_one _ v hv⟩,
    ⟨dedupFirst_nodup _, fun v hv => dedupFirst_count_one _ v hv⟩,
    ⟨dedupFirst_nodup _, fun v hv => dedupFirst_count_one _ v hv⟩,
    ⟨dedupFirst_nodup _, fun v hv => dedupFirst_count_one _ v hv⟩,
    ⟨dedupFirst_nodup _, fun v hv => dedupFirst_count_one _ v hv⟩,
    ⟨dedupFirst_nodup _, fun v hv =>
      List.count_eq_one_of_mem (dedupFirst_nodup _) ((mem_dedupFirst _ v).mpr hv)⟩,
    ⟨dedupFirst_nodup _, fun v hv => dedupFirst_count_one _ v hv⟩,
    ⟨dedupFirst_nodup _, fun v hv => dedupFirst_count_one _ v hv⟩⟩

/-- Two concrete shards sharing the schedule type "Lecture". -/
def lectureShard1 : SubjectFile Unit :=
  ⟨"CS", [], { emptyCaches with scheduleTypes := ["Lecture", "Laboratory"] }⟩

/-- A second concrete shard also containing "Lecture". -/
def lectureShard2 : SubjectFile Unit :=
  ⟨"MATH", [], { emptyCaches with scheduleTypes := ["Discussion", "Lecture"] }⟩

/-- Witness for C2: merging two shards that both contain "Lecture"
leaves exactly one "Lecture" entry. -/
theorem C2_merge_caches_duplicate_free_witness :
    (mergeAllSubjects [lectureShard1, lectureShard2]).2.scheduleTypes.count
      "Lecture" = 1 :=
  (C2_merge_caches_duplicate_free [lectureShard1, lectureShard2]).2.2.1.2 "Lecture"
    (by decide)

/-! ## C1: the merge does not remap record indices -/

theorem IsPrefix_get?_eq {α : Type} (l₁ l₂ : List α) (h : l₁ <+: l₂) (i : Nat)
    (v : α) (hv : l₁.get? i = some v) : l₂.get? i = some v := by
  obtain ⟨t, rfl⟩ := h
  have hi : i < l₁.length := by
    by_contra hc
    push_neg at hc
    rw [List.get?_eq_none.mpr hc] at hv
    exact absurd hv (by simp)
  rw [List.get?_append hi]
  exact hv

theorem merged_cat_extends {α : Type} [DecidableEq α] (ls : List (List α))
    (master : List α) (hm : master.Nodup) (hp : ∀ l ∈ ls, l <+: master)
    (l : List α) (hl : l ∈ ls) :
    l <+: dedupFirst ls.flatten ∧
      ∀ (i : Nat) (v : α), l.get? i = some v →
        (dedupFirst ls.flatten).get? i = some v := by
  have h1 := chunk_prefix_dedupFirst master hm ls hp l hl
  exact ⟨h1, fun i v hv => IsPrefix_get?_eq _ _ h1 i v hv⟩

theorem mem_assignAll {β : Type} :
    ∀ (m₂ m₁ : List (String × β)) (p : String × β),
      p ∈ assignAll m₁ m₂ → p ∈ m₁ ∨ p ∈ m₂ := by
  intro m₂
  induction m₂ with
  | nil => intro m₁ p hp; exact Or.inl hp
  | cons q m₂ ih =>
    intro m₁ p hp
    have hstep : assignAll m₁ (q :: m₂) = assignAll (insertAssoc q.1 q.2 m₁) m₂ := rfl
    rw [hstep] at hp
    rcases ih _ p hp with h | h
    · rcases mem_insertAssoc q.1 q.2 m₁ p h with h2 | h2
      · exact Or.inl h2
      · rw [Prod.mk.eta] at h2
        rw [h2]
        exact Or.inr (List.mem_cons_self q m₂)
    · exact Or.inr (List.mem_cons_of_mem q h)

theorem mem_merge_courses {κ : Type} [DecidableEq κ] :
    ∀ (files : List (SubjectFile κ)) (acc : List (String × Course))
      (p : String × Course),
      p ∈ files.foldl (fun acc f => assignAll acc f.courses) acc →
        p ∈ acc ∨ ∃ f ∈ files, p ∈ f.courses := by
  intro files
  induction files with
  | nil => intro acc p hp; exact Or.inl hp
  | cons f fs ih =>
    intro acc p hp
    simp only [List.foldl_cons] at hp
    rcases ih _ p hp with h | h
    · rcases mem_assignAll f.courses acc p h with h2 | h2
      · exact Or.inl h2
      · exact Or.inr ⟨f, List.mem_cons_self f fs, h2⟩
    · obtain ⟨g, hg, hpg⟩ := h
      exact Or.inr ⟨g, List.mem_cons_of_mem f hg, hpg⟩

/-- A section of shard B whose schedule type index 0 refers to
"Discussion" in shard B's local table. -/
def calcSection : Section := ⟨"2000", [], 3, 0, 0, [], -1⟩

/-- Shard A: its local schedule-type table has "Lecture" at index 0. -/
def mergeShardA : SubjectFile Unit :=
  ⟨"CS", [("CS 100", ⟨"Intro", [], [], none, []⟩)],
   { emptyCaches with scheduleTypes := ["Lecture"] }⟩

/-- Shard B: its local schedule-type table has "Discussion" at index 0,
and its record's section carries scheduleTypeIndex 0. -/
def mergeShardB : SubjectFile Unit :=
  ⟨"MATH", [("MATH 200", ⟨"Calc", [("A", calcSection)], [], none, []⟩)],
   { emptyCaches with scheduleTypes := ["Discussion"] }⟩

/-- C1 counterexample: `mergeAllSubjects` inserts shard B's record with
its stored index unchanged (scheduleTypeIndex still 0), but in the
merged schedule-type table index 0 holds "Lecture", whereas in shard B's
local table index 0 held "Discussion" — so the index does not refer to
the same value it referred to in the shard's local tables, and no
remapping to a merged-cache index took place. -/
theorem C1_counterexample :
    lookupA (mergeAllSubjects [mergeShardA, mergeShardB]).1 "MATH 200" =
      some ⟨"Calc", [("A", calcSection)], [], none, []⟩ ∧
    calcSection.scheduleTypeIndex = 0 ∧
    (mergeAllSubjects [mergeShardA, mergeShardB]).2.scheduleTypes.get? 0 =
      some "Lecture" ∧
    mergeShardB.caches.scheduleTypes.get? 0 = some "Discussion" ∧
    ("Lecture" : String) ≠ "Discussion" := by
  refine ⟨by decide, rfl, by decide, by decide, by decide⟩

/-- C1 amended: `mergeAllSubjects` performs no index remapping — every
record reaches the merged courses map verbatim from some shard — and
index meaning is preserved exactly when all shards' cache arrays are
prefixes of one common duplicate-free session cache (which holds when a
single `DataWriter` produced all shards in one run): then every shard
table is a prefix of the merged table, so every locally valid index
refers to the same value in the merged caches. -/
theorem C1_amended_merge_no_remap {κ : Type} [DecidableEq κ]
    (files : List (SubjectFile κ)) :
    (∀ p ∈ (mergeAllSubjects files).1, ∃ f ∈ files, p ∈ f.courses) ∧
    (∀ master : List String, master.Nodup →
      (∀ f ∈ files, f.caches.periods <+: master) → ∀ f ∈ files,
        f.caches.periods <+: (mergeAllSubjects files).2.periods ∧
        ∀ (i : Nat) (v : String), f.caches.periods.get? i = some v →
          (mergeAllSubjects files).2.periods.get? i = some v) ∧
    (∀ master : List String, master.Nodup →
      (∀ f ∈ files, f.caches.dateRanges <+: master) → ∀ f ∈ files,
        f.caches.dateRanges <+: (mergeAllSubjects files).2.dateRanges ∧
        ∀ (i : Nat) (v : String), f.caches.dateRanges.get? i = some v →
          (mergeAllSubjects files).2.dateRanges.get? i = some v) ∧
    (∀ master : List String, master.Nodup →
      (∀ f ∈ files, f.caches.scheduleTypes <+: master) → ∀ f ∈ files,
        f.caches.scheduleTypes <+: (mergeAllSubjects files).2.scheduleTypes ∧
        ∀ (i : Nat) (v : String), f.caches.scheduleTypes.get? i = some v →
          (mergeAllSubjects files).2.scheduleTypes.get? i = some v) ∧
    (∀ master : List String, master.Nodup →
      (∀ f ∈ files, f.caches.campuses <+: master) → ∀ f ∈ files,
        f.caches.campuses <+: (mergeAllSubjects files).2.campuses ∧
        ∀ (i : Nat) (v : String), f.caches.campuses.get? i = some v →
          (mergeAllSubjects files).2.campuses.get? i = some v) ∧
    (∀ master : List String, master.Nodup →
      (∀ f ∈ files, f.caches.attributes <+: master) → ∀ f ∈ files,
        f.caches.attributes <+: (mergeAllSubjects files).2.attributes ∧
        ∀ (i : Nat) (v : String), f.caches.attributes.get? i = some v →
          (mergeAllSubjects files).2.attributes.get? i = some v) ∧
    (∀ master : List String, master.Nodup →
      (∀ f ∈ files, f.caches.gradeBases <+: master) → ∀ f ∈ files,
        f.caches.gradeBases <+: (mergeAllSubjects files).2.gradeBases ∧
        ∀ (i : Nat) (v : String), f.caches.gradeBases.get? i = some v →
          (mergeAllSubjects files).2.gradeBases.get? i = some v) ∧
    (∀ master : List (Option κ × Option κ), master.Nodup →
      (∀ f ∈ files, f.caches.locations <+: master) → ∀ f ∈ files,
        f.caches.locations <+: (mergeAllSubjects files).2.locations ∧
        ∀ (i : Nat) (v : Option κ × Option κ), f.caches.locations.get? i = some v →
          (mergeAllSubjects files).2.locations.get? i = some v) ∧
    (∀ master : List String, master.Nodup →
      (∀ f ∈ files, f.caches.finalDates <+: master) → ∀ f ∈ files,
        f.caches.finalDates <+: (mergeAllSubjects files).2.finalDates ∧
        ∀ (i : Nat) (v : String), f.caches.finalDates.get? i = some v →
          (mergeAllSubjects files).2.finalDates.get? i = some v) ∧
    (∀ master : List String, master.Nodup →
      (∀ f ∈ files, f.caches.finalTimes <+: master) → ∀ f ∈ files,
        f.caches.finalTimes <+: (mergeAllSubjects files).2.finalTimes ∧
        ∀ (i : Nat) (v : String), f.caches.finalTimes.get? i = some v →
          (mergeAllSubjects files).2.finalTimes.get? i = some v) := by
  simp only [mergeAllSubjects]
  refine ⟨?_, ?_, ?_, ?_, ?_, ?_, ?_, ?_, ?_, ?_⟩
  · intro p hp
    rcases mem_merge_courses files [] p hp with h | h
    · exact absurd h (by simp)
    · exact h
  all_goals {
    intro master hm hp f hf
    refine merged_cat_extends _ master hm ?_ _ (List.mem_map_of_mem _ hf)
    intro l hl
    obtain ⟨g, hg, hgl⟩ := List.mem_map.mp hl
    rw [← hgl]
    exact hp g hg }

/-- Shard with the session cache at an earlier point of the run. -/
def prefixShardA : SubjectFile Unit :=
  ⟨"CS", [], { emptyCaches with scheduleTypes := ["Lecture"] }⟩

/-- Shard with the same session cache later in the run. -/
def prefixShardB : SubjectFile Unit :=
  ⟨"MATH", [], { emptyCaches with scheduleTypes := ["Lecture", "Discussion"] }⟩

/-- Witness for the amended C1 theorem at concrete single-run shards. -/
theorem C1_amended_merge_no_remap_witness :
    (mergeAllSubjects [prefixShardA, prefixShardB]).2.scheduleTypes.get? 1 =
      some "Discussion" := by
  have h := (C1_amended_merge_no_remap [prefixShardA, prefixShardB]).2.2.2.1
    ["Lecture", "Discussion"] (by decide)
    (by
      intro f hf
      rcases List.mem_cons.mp hf with h | h
      · rw [h]; exact ⟨["Discussion"], rfl⟩
      · rcases List.mem_cons.mp h with h2 | h2
        · rw [h2]; exact ⟨[], rfl⟩
        · exact absurd h2 (by simp))
    prefixShardB (by simp)
  exact h.2 1 "Discussion" (by decide)

/-! ## Progress store embedding (`ProgressManager`, `progress.ts`)

The manager holds an in-memory `ProgressFile` and a file on disk;
`saveProgress` copies the whole in-memory record to disk
(`fs.writeFileSync`, `progress.ts` 176-180).  The constant identity
fields (`termCode`, `termName`, `year`, `term`) and the wall-clock
timestamps (`startedAt`, `lastUpdated`) are omitted: no claim depends on
them.  The JS `partialSubjects` record field is named `partSubjects`
here. -/

/-- Per-subject progress marker (`progress.ts` `PartialSubjectProgress`). -/
structure PartProgress where
  completed : Nat
  total : Nat
  lastCourse : String
deriving DecidableEq

/-- Aggregate counters (`progress.ts` `ProgressStats`). -/
structure ProgressStats where
  successfulCourses : Nat
  failedCourses : Nat
  rateLimitCount : Nat
deriving DecidableEq

/-- The persisted progress record (`progress.ts` `ProgressFile`). -/
structure ProgressFile where
  totalSubjects : Nat
  totalCourses : Nat
  subjects : List String
  subjectCourseLists : List (String × List (String × String))
  completedSubjects : List String
  partSubjects : List (String × PartProgress)
  failedSubjects : List String
  stats : ProgressStats
deriving DecidableEq

/-- Manager state: the in-memory record plus the on-disk copy (`none`
when `progress.json` does not exist yet). -/
structure PMState where
  progress : ProgressFile
  disk : Option ProgressFile
deriving DecidableEq

/-- Fresh progress record (`progress.ts` 149-170). -/
def newProgress : ProgressFile := ⟨0, 0, [], [], [], [], [], ⟨0, 0, 0⟩⟩

/-- `saveProgress` (`progress.ts` 176-180): write the full in-memory
record to disk. -/
def saveProgress (st : PMState) : PMState := { st with disk := some st.progress }

/-- `updateTotals` (`progress.ts` 185-189). -/
def updateTotals (st : PMState) (totalSubjects totalCourses : Nat) : PMState :=
  saveProgress { st with progress :=
    { st.progress with totalSubjects := totalSubjects, totalCourses := totalCourses } }

/-- `cacheSubjects` (`progress.ts` 194-197). -/
def cacheSubjects (st : PMState) (subjects : List String) : PMState :=
  saveProgress { st with progress := { st.progress with subjects := subjects } }

/-- `cacheCourseLists` (`progress.ts` 209-212). -/
def cacheCourseLists (st : PMState)
    (lists : List (String × List (String × String))) : PMState :=
  saveProgress { st with progress :=
    { st.progress with subjectCourseLists := lists } }

/-- `incrementSuccess` (`progress.ts` 240-242): memory-only mutation,
no `saveProgress` call. -/
def incrementSuccess (st : PMState) : PMState :=
  { st with progress := { st.progress with stats :=
    { st.progress.stats with
      successfulCourses := st.progress.stats.successfulCourses + 1 } } }

/-- `incrementFailure` (`progress.ts` 247-249): memory-only mutation. -/
def incrementFailure (st : PMState) : PMState :=
  { st with progress := { st.progress with stats :=
    { st.progress.stats with
      failedCourses := st.progress.stats.failedCourses + 1 } } }

/-- `incrementRateLimit` (`progress.ts` 254-256): memory-only mutation. -/
def incrementRateLimit (st : PMState) : PMState :=
  { st with progress := { st.progress with stats :=
    { st.progress.stats with
      rateLimitCount := st.progress.stats.rateLimitCount + 1 } } }

/-- `markSubjectPartial` (`progress.ts` 338-341): set the subject's
marker and save.  It does not consult `completedSubjects`. -/
def markSubjectPart (st : PMState) (subject : String) (completed total : Nat)
    (lastCourse : String) : PMState :=
  let part₂ := insertAssoc subject ⟨completed, total, lastCourse⟩
    st.progress.partSubjects
  saveProgress { st with progress := { st.progress with partSubjects := part₂ } }

/-- `markSubjectCompleted` (`progress.ts` 346-362): delete the partial
marker, append to completed if absent, splice the first occurrence out
of failed, and save. -/
def markSubjectCompleted (st : PMState) (subject : String) : PMState :=
  let part₂ := eraseKey subject st.progress.partSubjects
  let p₁ := { st.progress with partSubjects := part₂ }
  let p₂ := { p₁ with completedSubjects :=
    if subject ∈ p₁.completedSubjects then p₁.completedSubjects
    else p₁.completedSubjects ++ [subject] }
  let p₃ := { p₂ with failedSubjects := p₂.failedSubjects.erase subject }
  saveProgress { st with progress := p₃ }

/-- `markSubjectFailed` (`progress.ts` 367-372): append to failed if
absent, and save.  It does not consult `completedSubjects`. -/
def markSubjectFailed (st : PMState) (subject : String) : PMState :=
  saveProgress { st with progress := { st.progress with failedSubjects :=
    if subject ∈ st.progress.failedSubjects then st.progress.failedSubjects
    else st.progress.failedSubjects ++ [subject] } }

/-- One mutating call of the progress manager. -/
inductive PMOp where
  | updateTotals (totalSubjects totalCourses : Nat)
  | cacheSubjects (subjects : List String)
  | cacheCourseLists (lists : List (String × List (String × String)))
  | markSubjectPart (subject : String) (completed total : Nat) (lastCourse : String)
  | markSubjectCompleted (subject : String)
  | markSubjectFailed (subject : String)
  | incrementSuccess
  | incrementFailure
  | incrementRateLimit
  | saveProgress
deriving DecidableEq

/-- Execute one operation. -/
def execOp (st : PMState) : PMOp → PMState
  | .updateTotals a b => updateTotals st a b
  | .cacheSubjects l => cacheSubjects st l
  | .cacheCourseLists m => cacheCourseLists st m
  | .markSubjectPart s c t lc => markSubjectPart st s c t lc
  | .markSubjectCompleted s => markSubjectCompleted st s
  | .markSubjectFailed s => markSubjectFailed st s
  | .incrementSuccess => incrementSuccess st
  | .incrementFailure => incrementFailure st
  | .incrementRateLimit => incrementRateLimit st
  | .saveProgress => saveProgress st

/-- Execute a sequence of operations. -/
def execOps (st : PMState) : List PMOp → PMState
  | [] => st
  | op :: ops => execOps (execOp st op) ops

/-! ### Association-list lookup lemmas -/

theorem lookupA_append {β : Type} :
    ∀ (l₁ l₂ : List (String × β)) (k : String),
      lookupA (l₁ ++ l₂) k =
        match lookupA l₁ k with
        | some v => some v
        | none => lookupA l₂ k := by
  intro l₁
  induction l₁ with
  | nil => intro l₂ k; rfl
  | cons p ps ih =>
    intro l₂ k
    by_cases h : p.1 = k
    · simp [lookupA, h]
    · simp only [List.cons_append, lookupA, if_neg h]
      exact ih l₂ k

theorem lookupA_eraseKey_self {β : Type} :
    ∀ (m : List (String × β)) (k : String), lookupA (eraseKey k m) k = none := by
  intro m
  induction m with
  | nil => intro k; rfl
  | cons p ps ih =>
    intro k
    by_cases h : p.1 = k
    · simp only [eraseKey, List.filter_cons]
      rw [if_neg (by simpa using h)]
      exact ih k
    · simp only [eraseKey, List.filter_cons]
      rw [if_pos (by simpa using h)]
      simp only [lookupA, if_neg h]
      exact ih k

theorem lookupA_eraseKey_ne {β : Type} :
    ∀ (m : List (String × β)) (k k₂ : String), k₂ ≠ k →
      lookupA (eraseKey k m) k₂ = lookupA m k₂ := by
  intro m
  induction m with
  | nil => intro k k₂ _; rfl
  | cons p ps ih =>
    intro k k₂ hne
    by_cases h : p.1 = k
    · simp only [eraseKey, List.filter_cons]
      rw [if_neg (by simpa using h)]
      have hp2 : p.1 ≠ k₂ := by rw [h]; exact fun hc => hne hc.symm
      simp only [lookupA, if_neg hp2]
      exact ih k k₂ hne
    · simp only [eraseKey, List.filter_cons]
      rw [if_pos (by simpa using h)]
      by_cases h2 : p.1 = k₂
      · simp [lookupA, h2]
      · simp only [lookupA, if_neg h2]
        exact ih k k₂ hne

theorem lookupA_insertAssoc_ne {β : Type} (m : List (String × β)) (k k₂ : String)
    (v : β) (hne : k₂ ≠ k) : lookupA (insertAssoc k v m) k₂ = lookupA m k₂ := by
  unfold insertAssoc
  rw [lookupA_append]
  rw [lookupA_eraseKey_ne m k k₂ hne]
  cases h : lookupA m k₂ with
  | some w => rfl
  | none =>
    simp only [lookupA]
    rw [if_neg (fun hc : k = k₂ => hne hc.symm)]

/-! ## C3: which mutating operations persist synchronously -/

/-- C3 counterexample: starting from a state whose disk copy is in sync,
`incrementSuccess` mutates the in-memory record but does not write it to
disk, so the on-disk progress file does not reflect the last completed
mutating call. -/
theorem C3_counterexample :
    (incrementSuccess (saveProgress ⟨newProgress, none⟩)).disk ≠
      some (incrementSuccess (saveProgress ⟨newProgress, none⟩)).progress := by
  decide

/-- C3 amended: `updateTotals`, `cacheSubjects`, `cacheCourseLists`,
`markSubjectPartial`, `markSubjectCompleted` and `markSubjectFailed`
write the full progress record to disk synchronously before returning;
the three increment operations (`incrementSuccess`, `incrementFailure`,
`incrementRateLimit`) only mutate the in-memory stats and leave the disk
copy untouched, to be persisted by a later saving call. -/
theorem C3_amended_write_through :
    (∀ (st : PMState) (a b : Nat),
      (updateTotals st a b).disk = some (updateTotals st a b).progress) ∧
    (∀ (st : PMState) (l : List String),
      (cacheSubjects st l).disk = some (cacheSubjects st l).progress) ∧
    (∀ (st : PMState) (m : List (String × List (String × String))),
      (cacheCourseLists st m).disk = some (cacheCourseLists st m).progress) ∧
    (∀ (st : PMState) (s : String) (c t : Nat) (lc : String),
      (markSubjectPart st s c t lc).disk = some (markSubjectPart st s c t lc).progress) ∧
    (∀ (st : PMState) (s : String),
      (markSubjectCompleted st s).disk = some (markSubjectCompleted st s).progress) ∧
    (∀ (st : PMState) (s : String),
      (markSubjectFailed st s).disk = some (markSubjectFailed st s).progress) ∧
    (∀ st : PMState, (incrementSuccess st).disk = st.disk ∧
      (incrementSuccess st).progress.stats.successfulCourses =
        st.progress.stats.successfulCourses + 1) ∧
    (∀ st : PMState, (incrementFailure st).disk = st.disk ∧
      (incrementFailure st).progress.stats.failedCourses =
        st.progress.stats.failedCourses + 1) ∧
    (∀ st : PMState, (incrementRateLimit st).disk = st.disk ∧
      (incrementRateLimit st).progress.stats.rateLimitCount =
        st.progress.stats.rateLimitCount + 1) :=
  ⟨fun _ _ _ => rfl, fun _ _ => rfl, fun _ _ => rfl, fun _ _ _ _ _ => rfl,
   fun _ _ => rfl, fun _ _ => rfl, fun _ => ⟨rfl, rfl⟩, fun _ => ⟨rfl, rfl⟩,
   fun _ => ⟨rfl, rfl⟩⟩

/-! ## C4: the completed/partial/failed exclusivity invariant -/

/-- C4 counterexample: `markSubjectPartial` issued after
`markSubjectCompleted` for the same subject makes the subject both
completed and partial, so the invariant does not hold for every
operation sequence. -/
theorem C4_counterexample :
    "CS" ∈ (markSubjectPart (markSubjectCompleted ⟨newProgress, none⟩ "CS")
      "CS" 1 2 "CS 100").progress.completedSubjects ∧
    lookupA (markSubjectPart (markSubjectCompleted ⟨newProgress, none⟩ "CS")
      "CS" 1 2 "CS 100").progress.partSubjects "CS" ≠ none := by
  decide

/-- The exclusivity invariant of the progress record: the failed list is
duplicate-free and no completed subject has a partial marker or a failed
marker. -/
def InvPM (st : PMState) : Prop :=
  st.progress.failedSubjects.Nodup ∧
  ∀ s ∈ st.progress.completedSubjects,
    lookupA st.progress.partSubjects s = none ∧ s ∉ st.progress.failedSubjects

/-- The orchestrator's usage discipline: partial and failed markers are
only set for subjects that are not currently completed (`index.ts` skips
completed subjects before scraping). -/
def okOp (st : PMState) : PMOp → Prop
  | .markSubjectPart s _ _ _ => s ∉ st.progress.completedSubjects
  | .markSubjectFailed s => s ∉ st.progress.completedSubjects
  | _ => True

/-- A trace is disciplined when every operation satisfies `okOp` in the
state in which it executes. -/
def okTrace : PMState → List PMOp → Prop
  | _, [] => True
  | st, op :: ops => okOp st op ∧ okTrace (execOp st op) ops

theorem invPM_preserved (st : PMState) (op : PMOp) (hInv : InvPM st)
    (hok : okOp st op) : InvPM (execOp st op) := by
  cases op with
  | updateTotals a b => exact hInv
  | cacheSubjects l => exact hInv
  | cacheCourseLists m => exact hInv
  | incrementSuccess => exact hInv
  | incrementFailure => exact hInv
  | incrementRateLimit => exact hInv
  | saveProgress => exact hInv
  | markSubjectPart s c t lc =>
    obtain ⟨hnd, hcomp⟩ := hInv
    refine ⟨hnd, ?_⟩
    intro s₂ hs₂
    have hs₂2 : s₂ ∈ st.progress.completedSubjects := hs₂
    have hne : s₂ ≠ s := fun hc => hok (hc ▸ hs₂2)
    refine ⟨?_, (hcomp s₂ hs₂2).2⟩
    show lookupA (insertAssoc s ⟨c, t, lc⟩ st.progress.partSubjects) s₂ = none
    rw [lookupA_insertAssoc_ne _ _ _ _ hne]
    exact (hcomp s₂ hs₂2).1
  | markSubjectFailed s =>
    obtain ⟨hnd, hcomp⟩ := hInv
    constructor
    · show (if s ∈ st.progress.failedSubjects then st.progress.failedSubjects
        else st.progress.failedSubjects ++ [s]).Nodup
      split_ifs with hmem
      · exact hnd
      · simp [List.nodup_append, hnd, hmem]
    · intro s₂ hs₂
      have hs₂2 : s₂ ∈ st.progress.completedSubjects := hs₂
      have hne : s₂ ≠ s := fun hc => hok (hc ▸ hs₂2)
      refine ⟨(hcomp s₂ hs₂2).1, ?_⟩
      show s₂ ∉ (if s ∈ st.progress.failedSubjects then st.progress.failedSubjects
        else st.progress.failedSubjects ++ [s])
      split_ifs with hmem
      · exact (hcomp s₂ hs₂2).2
      · intro hc
        rcases List.mem_append.mp hc with h | h
        · exact (hcomp s₂ hs₂2).2 h
        · exact hne (List.mem_singleton.mp h)
  | markSubjectCompleted s =>
    obtain ⟨hnd, hcomp⟩ := hInv
    constructor
    · show (st.progress.failedSubjects.erase s).Nodup
      exact hnd.erase s
    · intro s₂ hs₂
      have hs₂2 : s₂ ∈ st.progress.completedSubjects ∨ s₂ = s := by
        revert hs₂
        show s₂ ∈ (if s ∈ st.progress.completedSubjects
          then st.progress.completedSubjects
          else st.progress.completedSubjects ++ [s]) → _
        split_ifs with hmem
        · exact Or.inl
        · intro h
          rcases List.mem_append.mp h with h | h
          · exact Or.inl h
          · exact Or.inr (List.mem_singleton.mp h)
      by_cases hca : s₂ = s
      · subst hca
        refine ⟨lookupA_eraseKey_self _ _, ?_⟩
        show s₂ ∉ st.progress.failedSubjects.erase s₂
        exact hnd.not_mem_erase
      · rcases hs₂2 with h | h
        · refine ⟨?_, ?_⟩
          · show lookupA (eraseKey s st.progress.partSubjects) s₂ = none
            rw [lookupA_eraseKey_ne _ _ _ hca]
            exact (hcomp s₂ h).1
          · show s₂ ∉ st.progress.failedSubjects.erase s
            intro hc
            exact (hcomp s₂ h).2 (List.erase_subset _ _ hc)
        · exact absurd h hca

theorem invPM_trace (ops : List PMOp) :
    ∀ st, InvPM st → okTrace st ops → InvPM (execOps st ops) := by
  induction ops with
  | nil => intro st h _; exact h
  | cons op ops ih =>
    intro st h hok
    exact ih _ (invPM_preserved st op h hok.1) hok.2

/-- C4 amended: `markSubjectCompleted` does clear the partial and failed
markers (immediately after it, the subject is completed and neither
partial nor failed), and the exclusivity invariant is preserved by every
operation sequence in which `markSubjectPartial` and `markSubjectFailed`
are only issued for subjects not currently completed (the orchestrator's
discipline); a later `markSubjectPartial`/`markSubjectFailed` on a
completed subject can, however, re-mark it (see the counterexample), so
the invariant is conditional on that discipline rather than holding for
every sequence. -/
theorem C4_amended_completed_exclusive :
    (∀ (st : PMState) (s : String), InvPM st →
      s ∈ (markSubjectCompleted st s).progress.completedSubjects ∧
      lookupA (markSubjectCompleted st s).progress.partSubjects s = none ∧
      s ∉ (markSubjectCompleted st s).progress.failedSubjects) ∧
    (∀ (st : PMState) (ops : List PMOp), InvPM st → okTrace st ops →
      InvPM (execOps st ops)) ∧
    InvPM ⟨newProgress, none⟩ := by
  refine ⟨?_, fun st ops h hok => invPM_trace ops st h hok, ?_⟩
  · intro st s hInv
    refine ⟨?_, lookupA_eraseKey_self _ _, ?_⟩
    · show s ∈ (if s ∈ st.progress.completedSubjects
        then st.progress.completedSubjects
        else st.progress.completedSubjects ++ [s])
      split_ifs with hmem
      · exact hmem
      · exact List.mem_append.mpr (Or.inr (List.mem_singleton.mpr rfl))
    · show s ∉ st.progress.failedSubjects.erase s
      exact hInv.1.not_mem_erase
  · exact ⟨List.nodup_nil, by simp [newProgress]⟩

/-- Witness for the amended C4 theorem on a concrete trace. -/
theorem C4_amended_completed_exclusive_witness :
    "CS" ∈ (markSubjectCompleted ⟨newProgress, none⟩ "CS").progress.completedSubjects ∧
    InvPM (execOps ⟨newProgress, none⟩
      [PMOp.markSubjectCompleted "CS", PMOp.markSubjectPart "MATH" 1 2 "MATH 200"]) := by
  obtain ⟨h1, h2, h3⟩ := C4_amended_completed_exclusive
  refine ⟨(h1 ⟨newProgress, none⟩ "CS" h3).1, ?_⟩
  refine h2 ⟨newProgress, none⟩ _ h3 ⟨trivial, ?_, trivial⟩
  show ("MATH" : String) ∉ (execOp ⟨newProgress, none⟩
    (PMOp.markSubjectCompleted "CS")).progress.completedSubjects
  decide

/-! ## Orchestrator embedding (`apps/crawler-v3/src/index.ts`) -/

/-- A discovered course (`scraper.ts` `CourseInfo`). -/
structure CourseInfo where
  subject : String
  number : String
deriving DecidableEq

/-- The Catalog Key used for resume dedup, `${subject} ${number}`
(`index.ts` 117, 166). -/
def courseKey (c : CourseInfo) : String := c.subject ++ " " ++ c.number

/-- The result-processing loop of `scrapeSubjectCourses` (`index.ts`
153-177), restricted to its data flow: one fetch per listed course, a
successful fetch is converted with the shared `DataWriter` and stored
under its Catalog Key, a failed fetch stores nothing.  The fetch
outcome is the oracle `fetch` (network success gives the scraped
record); the stats/save side effects and the abort path are not part of
the claims settled against this function. -/
def scrapeLoop {κ : Type} [DecidableEq κ] (findLoc : String → Option (κ × κ))
    (fetch : CourseInfo → Option ScrapedCourse) :
    List CourseInfo → List (String × Course) → Caches κ →
      List (String × Course) × Caches κ
  | [], m, caches => (m, caches)
  | c :: rest, m, caches =>
    match fetch c with
    | some d =>
      let r := convertCourse findLoc caches d
      scrapeLoop findLoc fetch rest (insertAssoc (courseKey c) r.1 m) r.2
    | none => scrapeLoop findLoc fetch rest m caches

/-- Result of scraping one subject. -/
structure SubjectScrapeResult (κ : Type) where
  attempted : List CourseInfo
  courses : List (String × Course)
  caches : Caches κ
deriving DecidableEq

/-- `scrapeSubjectCourses` (`index.ts` 103-237): compute the remaining
work set as the discovered list minus the already-recorded keys
(`index.ts` 115-119), return the existing courses unchanged when
nothing remains (`index.ts` 125-128), otherwise start from a copy of
the existing courses and fetch exactly the remaining list. -/
def scrapeSubjectCourses {κ : Type} [DecidableEq κ]
    (findLoc : String → Option (κ × κ)) (fetch : CourseInfo → Option ScrapedCourse)
    (allCoursesInSubject : List CourseInfo) (existingCourses : List (String × Course))
    (caches : Caches κ) : SubjectScrapeResult κ :=
  let existingKeys := existingCourses.map Prod.fst
  let coursesToScrape := allCoursesInSubject.filter
    (fun c => !(existingKeys.contains (courseKey c)))
  if coursesToScrape.isEmpty then ⟨[], existingCourses, caches⟩
  else
    let r := scrapeLoop findLoc fetch coursesToScrape existingCourses caches
    ⟨coursesToScrape, r.1, r.2⟩

/-- Outcome of processing one term in `main` (`index.ts` 300-496):
`completed` pushes the term code onto `completedTerms`; `errored` is a
caught per-term exception that sets `anyTermFailed` and continues;
`aborted` is the hard-block 403 path that calls `process.exit(1)`;
`skipped` is a `continue` (no subjects / no courses discovered). -/
inductive TermOutcome where
  | completed
  | errored
  | aborted
  | skipped
deriving DecidableEq

/-- The term loop of `main`: returns an early exit code when a term
aborts, else the final `completedTerms` count and `anyTermFailed`
flag. -/
def processTerms : List TermOutcome → Nat → Bool → Option Nat × Nat × Bool
  | [], c, f => (none, c, f)
  | t :: rest, c, f =>
    match t with
    | .aborted => (some 1, c, f)
    | .errored => processTerms rest c true
    | .completed => processTerms rest (c + 1) f
    | .skipped => processTerms rest c f

/-- The observable outcome of `main` (`index.ts` 297-530): the process
exit code and whether `promoteIndexTemp` ran (`index.ts` 501-506 guards
the promotion with `completedTerms.length === termsToScrape.length &&
!anyTermFailed`; the non-abort path falls off the end of `main` and
exits 0). -/
def mainRun (terms : List TermOutcome) : Nat × Bool :=
  match processTerms terms 0 false with
  | (some code, _, _) => (code, false)
  | (none, c, f) => (0, if c = terms.length ∧ f = false then true else false)

/-- The two index-manifest files (`indextemp.json` and `index.json`),
each `none` when absent, otherwise holding the file content. -/
structure IdxFS where
  temp : Option String
  index : Option String
deriving DecidableEq

/-- `promoteIndexTemp` (`progress.ts` 641-658): warn and return false
when `indextemp.json` is missing, else rename it onto `index.json` in a
single atomic rename. -/
def promoteIndexTemp (fs : IdxFS) : Bool × IdxFS :=
  match fs.temp with
  | none => (false, fs)
  | some content => (true, ⟨none, some content⟩)

/-- The index endgame of `main` (`index.ts` 499-515): promote exactly
when every intended term completed and none failed; otherwise leave
both files as they are. -/
def finishIndex (fs : IdxFS) (completedCount totalTerms : Nat)
    (anyFailed : Bool) : IdxFS :=
  if completedCount = totalTerms ∧ anyFailed = false then (promoteIndexTemp fs).2
  else fs

/-! ## C5: process exit code versus manifest promotion -/

theorem processTerms_exit :
    ∀ (terms : List TermOutcome) (c : Nat) (f : Bool),
      (processTerms terms c f).1 =
        if TermOutcome.aborted ∈ terms then some 1 else none := by
  intro terms
  induction terms with
  | nil => intro c f; simp [processTerms]
  | cons t rest ih =>
    intro c f
    cases t with
    | aborted => simp [processTerms]
    | errored => simp [processTerms, ih, List.mem_cons]
    | completed => simp [processTerms, ih, List.mem_cons]
    | skipped => simp [processTerms, ih, List.mem_cons]

theorem processTerms_count :
    ∀ (terms : List TermOutcome) (c : Nat) (f : Bool), TermOutcome.aborted ∉ terms →
      (processTerms terms c f).2.1 =
        c + terms.countP (fun t => t == TermOutcome.completed) := by
  intro terms
  induction terms with
  | nil => intro c f _; simp [processTerms]
  | cons t rest ih =>
    intro c f hab
    have hrest : TermOutcome.aborted ∉ rest := fun h => hab (List.mem_cons_of_mem _ h)
    cases t with
    | aborted => exact absurd (List.mem_cons_self _ _) hab
    | errored =>
      rw [show processTerms (TermOutcome.errored :: rest) c f =
        processTerms rest c true from rfl, ih c true hrest]
      simp [List.countP_cons]
    | completed =>
      rw [show processTerms (TermOutcome.completed :: rest) c f =
        processTerms rest (c + 1) f from rfl, ih (c + 1) f hrest]
      simp [List.countP_cons]
      omega
    | skipped =>
      rw [show processTerms (TermOutcome.skipped :: rest) c f =
        processTerms rest c f from rfl, ih c f hrest]
      simp [List.countP_cons]

theorem processTerms_flag :
    ∀ (terms : List TermOutcome) (c : Nat) (f : Bool), TermOutcome.aborted ∉ terms →
      (processTerms terms c f).2.2 =
        (f || terms.any (fun t => t == TermOutcome.errored)) := by
  intro terms
  induction terms with
  | nil => intro c f _; simp [processTerms]
  | cons t rest ih =>
    intro c f hab
    have hrest : TermOutcome.aborted ∉ rest := fun h => hab (List.mem_cons_of_mem _ h)
    cases t with
    | aborted => exact absurd (List.mem_cons_self _ _) hab
    | errored =>
      rw [show processTerms (TermOutcome.errored :: rest) c f =
        processTerms rest c true from rfl, ih c true hrest]
      simp
    | completed =>
      rw [show processTerms (TermOutcome.completed :: rest) c f =
        processTerms rest (c + 1) f from rfl, ih (c + 1) f hrest]
      simp [show (TermOutcome.completed == TermOutcome.errored) = false from rfl]
    | skipped =>
      rw [show processTerms (TermOutcome.skipped :: rest) c f =
        processTerms rest c f from rfl, ih c f hrest]
      simp [show (TermOutcome.skipped == TermOutcome.errored) = false from rfl]

/-- C5 counterexample: a term that fails with a caught exception (for
example during discovery or merge) sets `anyTermFailed` and suppresses
promotion, but `main` then falls off the end and the process exits 0 —
so a failed term does not produce a non-zero exit code, and exit code
zero does not imply the manifest was promoted. -/
theorem C5_counterexample :
    (mainRun [TermOutcome.errored]).1 = 0 ∧
    (mainRun [TermOutcome.errored]).2 = false := by
  decide

/-- C5 amended: the process exit code is non-zero exactly when some term
hard-aborts (403); a term failing for any other (caught) reason leaves
the exit code 0 while still preventing promotion.  The manifest is
promoted exactly when every intended term completed, and in that case
the run exits 0 after promoting. -/
theorem C5_amended_exit_code (terms : List TermOutcome) :
    ((mainRun terms).1 = 0 ↔ TermOutcome.aborted ∉ terms) ∧
    ((mainRun terms).2 = true ↔ ∀ t ∈ terms, t = TermOutcome.completed) ∧
    ((∀ t ∈ terms, t = TermOutcome.completed) → mainRun terms = (0, true)) := by
  rcases hpt : processTerms terms 0 false with ⟨e, c, f⟩
  have he := processTerms_exit terms 0 false
  rw [hpt] at he
  by_cases hab : TermOutcome.aborted ∈ terms
  · rw [if_pos hab] at he
    subst he
    simp only [mainRun, hpt]
    have hnall : ¬ ∀ t ∈ terms, t = TermOutcome.completed := by
      intro hall
      exact absurd (hall _ hab) (by decide)
    exact ⟨iff_of_false (by decide) (fun hn => hn hab),
      iff_of_false (by decide) hnall,
      fun hall => absurd hall hnall⟩
  · rw [if_neg hab] at he
    subst he
    have hc := processTerms_count terms 0 false hab
    rw [hpt] at hc
    have hf := processTerms_flag terms 0 false hab
    rw [hpt] at hf
    simp only [Nat.zero_add] at hc
    simp only [Bool.false_or] at hf
    have hcond : (c = terms.length ∧ f = false) ↔
        ∀ t ∈ terms, t = TermOutcome.completed := by
      constructor
      · rintro ⟨h1, _⟩
        rw [hc] at h1
        intro t ht
        have := List.countP_eq_length.mp h1 t ht
        exact beq_iff_eq.mp this
      · intro hall
        constructor
        · rw [hc]
          exact List.countP_eq_length.mpr
            (fun t ht => beq_iff_eq.mpr (hall t ht))
        · rw [hf]
          rw [List.any_eq_false]
          intro t ht hbe
          have := beq_iff_eq.mp hbe
          rw [hall t ht] at this
          exact absurd this (by decide)
    simp only [mainRun, hpt]
    refine ⟨by simp [hab], ?_, ?_⟩
    · constructor
      · intro h
        split_ifs at h with hcnd
        exact hcond.mp hcnd
      · intro hall
        rw [if_pos (hcond.mpr hall)]
    · intro hall
      rw [if_pos (hcond.mpr hall)]

/-- Witness for the amended C5 theorem on concrete term lists. -/
theorem C5_amended_exit_code_witness :
    mainRun [TermOutcome.completed, TermOutcome.completed] = (0, true) ∧
    (mainRun [TermOutcome.completed, TermOutcome.aborted]).1 ≠ 0 := by
  constructor
  · exact (C5_amended_exit_code [TermOutcome.completed, TermOutcome.completed]).2.2
      (by decide)
  · intro h
    have := (C5_amended_exit_code [TermOutcome.completed, TermOutcome.aborted]).1.mp h
    exact this (by decide)

/-! ## C9: conditional atomic manifest promotion -/

/-- C9: promotion is a single rename of the provisional manifest onto
the canonical one, it runs only under the all-completed/no-failure
guard, and in every other outcome — guard false, or provisional file
missing — the canonical `index.json` is left unchanged. -/
theorem C9_promotion_conditional_atomic (fs : IdxFS) (c t : Nat) (f : Bool) :
    (¬(c = t ∧ f = false) → finishIndex fs c t f = fs) ∧
    ((c = t ∧ f = false) → ∀ content, fs.temp = some content →
      (finishIndex fs c t f).index = some content ∧
      (finishIndex fs c t f).temp = none) ∧
    (fs.temp = none → promoteIndexTemp fs = (false, fs)) ∧
    ((c = t ∧ f = false) → fs.temp = none → finishIndex fs c t f = fs) := by
  refine ⟨?_, ?_, ?_, ?_⟩
  · intro h
    unfold finishIndex
    rw [if_neg h]
  · intro h content hc
    unfold finishIndex promoteIndexTemp
    rw [if_pos h, hc]
    exact ⟨rfl, rfl⟩
  · intro h
    unfold promoteIndexTemp
    rw [h]
  · intro h hc
    unfold finishIndex promoteIndexTemp
    rw [if_pos h, hc]

/-- Witness for C9 at concrete file states. -/
theorem C9_promotion_conditional_atomic_witness :
    finishIndex ⟨some "new", some "old"⟩ 1 2 false = ⟨some "new", some "old"⟩ ∧
    (finishIndex ⟨some "new", some "old"⟩ 2 2 false).index = some "new" ∧
    (finishIndex ⟨some "new", some "old"⟩ 2 2 false).temp = none ∧
    promoteIndexTemp ⟨none, some "old"⟩ = (false, ⟨none, some "old"⟩) := by
  obtain ⟨h1, h2, h3, _⟩ := C9_promotion_conditional_atomic
    (⟨some "new", some "old"⟩ : IdxFS) 1 2 false
  obtain ⟨_, h2b, _, _⟩ := C9_promotion_conditional_atomic
    (⟨some "new", some "old"⟩ : IdxFS) 2 2 false
  obtain ⟨_, _, h3c, _⟩ := C9_promotion_conditional_atomic
    (⟨none, some "old"⟩ : IdxFS) 2 2 false
  refine ⟨h1 (by simp), ?_, ?_, h3c rfl⟩
  · exact (h2b ⟨rfl, rfl⟩ "new" rfl).1
  · exact (h2b ⟨rfl, rfl⟩ "new" rfl).2

/-! ## C6: idempotent resume -/

theorem lookupA_insertAssoc_self {β : Type} (m : List (String × β)) (k : String)
    (v : β) : lookupA (insertAssoc k v m) k = some v := by
  unfold insertAssoc
  rw [lookupA_append, lookupA_eraseKey_self]
  simp [lookupA]

theorem lookupA_ne_none_iff {β : Type} :
    ∀ (m : List (String × β)) (k : String),
      lookupA m k ≠ none ↔ k ∈ m.map Prod.fst := by
  intro m
  induction m with
  | nil => intro k; simp [lookupA]
  | cons p ps ih =>
    intro k
    by_cases h : p.1 = k
    · simp [lookupA, h]
    · simp only [lookupA, if_neg h, List.map_cons, List.mem_cons]
      rw [ih]
      constructor
      · exact Or.inr
      · rintro (hk | hk)
        · exact absurd hk.symm h
        · exact hk

theorem scrapeLoop_lookup {κ : Type} [DecidableEq κ]
    (findLoc : String → Option (κ × κ)) (fetch : CourseInfo → Option ScrapedCourse) :
    ∀ (cs : List CourseInfo) (m : List (String × Course)) (caches : Caches κ)
      (k : String),
      lookupA (scrapeLoop findLoc fetch cs m caches).1 k ≠ none ↔
        (lookupA m k ≠ none ∨
          k ∈ (cs.filter (fun c => (fetch c).isSome)).map courseKey) := by
  intro cs
  induction cs with
  | nil => intro m caches k; simp [scrapeLoop]
  | cons c cs ih =>
    intro m caches k
    cases hf : fetch c with
    | none =>
      rw [show scrapeLoop findLoc fetch (c :: cs) m caches =
        scrapeLoop findLoc fetch cs m caches from by simp [scrapeLoop, hf]]
      rw [ih]
      simp [List.filter_cons, hf]
    | some d =>
      rw [show scrapeLoop findLoc fetch (c :: cs) m caches =
        scrapeLoop findLoc fetch cs
          (insertAssoc (courseKey c) (convertCourse findLoc caches d).1 m)
          (convertCourse findLoc caches d).2 from by simp [scrapeLoop, hf]]
      rw [ih]
      simp only [List.filter_cons, hf, Option.isSome_some, if_true, List.map_cons,
        List.mem_cons]
      by_cases hk : k = courseKey c
      · subst hk
        rw [lookupA_insertAssoc_self]
        simp
      · rw [lookupA_insertAssoc_ne _ _ _ _ hk]
        constructor
        · rintro (h | h)
          · exact Or.inl h
          · exact Or.inr (Or.inr h)
        · rintro (h | h | h)
          · exact Or.inl h
          · exact absurd h hk
          · exact Or.inr h

theorem scrapeLoop_preserves {κ : Type} [DecidableEq κ]
    (findLoc : String → Option (κ × κ)) (fetch : CourseInfo → Option ScrapedCourse) :
    ∀ (cs : List CourseInfo) (m : List (String × Course)) (caches : Caches κ)
      (k : String), (∀ c ∈ cs, courseKey c ≠ k) →
      lookupA (scrapeLoop findLoc fetch cs m caches).1 k = lookupA m k := by
  intro cs
  induction cs with
  | nil => intro m caches k _; rfl
  | cons c cs ih =>
    intro m caches k hkeys
    have hrest : ∀ c₂ ∈ cs, courseKey c₂ ≠ k :=
      fun c₂ hc₂ => hkeys c₂ (List.mem_cons_of_mem c hc₂)
    cases hf : fetch c with
    | none =>
      rw [show scrapeLoop findLoc fetch (c :: cs) m caches =
        scrapeLoop findLoc fetch cs m caches from by simp [scrapeLoop, hf]]
      exact ih m caches k hrest
    | some d =>
      rw [show scrapeLoop findLoc fetch (c :: cs) m caches =
        scrapeLoop findLoc fetch cs
          (insertAssoc (courseKey c) (convertCourse findLoc caches d).1 m)
          (convertCourse findLoc caches d).2 from by simp [scrapeLoop, hf]]
      rw [ih _ _ k hrest]
      exact lookupA_insertAssoc_ne _ _ _ _
        (fun hc => hkeys c (List.mem_cons_self c cs) hc.symm)

/-- C6: resume is idempotent with respect to completed keys: the fetch
work list is exactly the discovered courses whose Catalog Keys
(`subject number`) are not already recorded; when nothing remains the
existing courses are returned unchanged; the final map's keys are the
union of the existing keys and the successfully fetched keys; and
existing entries are never overwritten. -/
theorem C6_resume_idempotent {κ : Type} [DecidableEq κ]
    (findLoc : String → Option (κ × κ)) (fetch : CourseInfo → Option ScrapedCourse)
    (all : List CourseInfo) (existing : List (String × Course)) (caches : Caches κ) :
    ((scrapeSubjectCourses findLoc fetch all existing caches).attempted =
      all.filter (fun c => !((existing.map Prod.fst).contains (courseKey c)))) ∧
    (∀ c : CourseInfo,
      c ∈ (scrapeSubjectCourses findLoc fetch all existing caches).attempted ↔
        c ∈ all ∧ courseKey c ∉ existing.map Prod.fst) ∧
    (all.filter (fun c => !((existing.map Prod.fst).contains (courseKey c))) = [] →
      (scrapeSubjectCourses findLoc fetch all existing caches).courses = existing) ∧
    (∀ k : String,
      lookupA (scrapeSubjectCourses findLoc fetch all existing caches).courses k ≠
          none ↔
        (k ∈ existing.map Prod.fst ∨
          k ∈ ((scrapeSubjectCourses findLoc fetch all existing caches).attempted.filter
            (fun c => (fetch c).isSome)).map courseKey)) ∧
    (∀ k : String, k ∈ existing.map Prod.fst →
      lookupA (scrapeSubjectCourses findLoc fetch all existing caches).courses k =
        lookupA existing k) := by
  unfold scrapeSubjectCourses
  by_cases hts : (all.filter
      (fun c => !((existing.map Prod.fst).contains (courseKey c)))).isEmpty
  · rw [if_pos hts]
    have hnil : all.filter
        (fun c => !((existing.map Prod.fst).contains (courseKey c))) = [] :=
      List.isEmpty_iff.mp hts
    refine ⟨hnil.symm, ?_, fun _ => rfl, ?_, fun k _ => rfl⟩
    · intro c
      constructor
      · intro hc; exact absurd hc (by simp)
      · rintro ⟨hin, hnot⟩
        have : c ∈ all.filter
            (fun c => !((existing.map Prod.fst).contains (courseKey c))) := by
          rw [List.mem_filter]
          refine ⟨hin, ?_⟩
          simpa using hnot
        rw [hnil] at this
        exact absurd this (by simp)
    · intro k
      simp only [List.filter_nil, List.map_nil, List.not_mem_nil, or_false]
      exact lookupA_ne_none_iff existing k
  · rw [if_neg hts]
    refine ⟨rfl, ?_, ?_, ?_, ?_⟩
    · intro c
      rw [List.mem_filter]
      constructor
      · rintro ⟨hin, hb⟩
        refine ⟨hin, ?_⟩
        simpa using hb
      · rintro ⟨hin, hnot⟩
        refine ⟨hin, ?_⟩
        simpa using hnot
    · intro hnil
      exact absurd (List.isEmpty_iff.mpr hnil) hts
    · intro k
      rw [scrapeLoop_lookup findLoc fetch _ existing caches k]
      rw [lookupA_ne_none_iff existing k]
    · intro k hk
      refine scrapeLoop_preserves findLoc fetch _ existing caches k ?_
      intro c hc
      rw [List.mem_filter] at hc
      intro hkey
      have : courseKey c ∉ existing.map Prod.fst := by simpa using hc.2
      exact this (hkey ▸ hk)

/-- Witness for C6 on a concrete subject: one of two discovered courses
is already recorded, so exactly the other is attempted. -/
theorem C6_resume_idempotent_witness :
    (scrapeSubjectCourses (fun _ : String => (none : Option (Unit × Unit)))
      (fun _ => none) [⟨"CS", "100"⟩, ⟨"CS", "200"⟩]
      [("CS 100", ⟨"Intro", [], [], none, []⟩)] emptyCaches).attempted =
      [⟨"CS", "200"⟩] ∧
    (scrapeSubjectCourses (fun _ : String => (none : Option (Unit × Unit)))
      (fun _ => none) [⟨"CS", "100"⟩]
      [("CS 100", ⟨"Intro", [], [], none, []⟩)] emptyCaches).courses =
      [("CS 100", ⟨"Intro", [], [], none, []⟩)] := by
  constructor
  · rw [(C6_resume_idempotent (fun _ : String => (none : Option (Unit × Unit)))
      (fun _ => none) [⟨"CS", "100"⟩, ⟨"CS", "200"⟩]
      [("CS 100", ⟨"Intro", [], [], none, []⟩)] emptyCaches).1]
    decide
  · exact (C6_resume_idempotent (fun _ : String => (none : Option (Unit × Unit)))
      (fun _ => none) [⟨"CS", "100"⟩]
      [("CS 100", ⟨"Intro", [], [], none, []⟩)] emptyCaches).2.2.1 (by decide)
